import Mathlib

/-!
Verification development for the Crewai-MCP repository.

The definitions below are a shallow embedding of the repository's owned
logic:

* `extract_final_result` (app.py, lines 64-157): the three-strategy
  transcript scraper, modelled on lists of characters;
* `run_research` (app.py, lines 25-62): subprocess outcome handling;
* the ANSI-stripping pass of app.py's `main` (lines 229-231);
* `get_available_llm` (main.py, lines 21-87): provider fallback chain;
* `get_working_servers` / `check_node_version` (main.py, lines 140-225);
* the count clamping of `brave_search` / `search_news`
  (servers/search_server.py).

Python strings are modelled as `List Char` (wrapped in `String` at the
boundary); Python `str.strip` / `str.split` / `in` / `str.join` are given
explicit executable embeddings below.  Divergences of the embedding from
full Python semantics are confined to Unicode corner cases that none of
the claims touch and are noted next to each definition.
-/

set_option maxHeartbeats 1000000

namespace CrewaiMCP

/-- Characters removed by Python's default `str.strip()`.  We model the
ASCII whitespace characters (Python additionally strips `\x1c`-`\x1f`,
`\x85` and Unicode space-category characters; those never occur in the
transcripts or claims considered here). -/
def isPySpace (c : Char) : Bool :=
  c == ' ' || c == '\t' || c == '\n' || c == '\r' || c == '\x0b' || c == '\x0c'

/-- Embedding of Python `str.strip()` on character lists. -/
def pyStripList (l : List Char) : List Char :=
  ((l.dropWhile isPySpace).reverse.dropWhile isPySpace).reverse

/-- Embedding of Python `str.strip()` on strings. -/
def pyStrip (s : String) : String := ⟨pyStripList s.data⟩

/-- Embedding of Python `output.split('\n')`: split at every newline,
keeping empty pieces (so the empty string yields one empty line). -/
def splitNL : List Char → List (List Char)
  | [] => [[]]
  | c :: t =>
    if c = '\n' then [] :: splitNL t
    else
      match splitNL t with
      | [] => [[c]]
      | h :: r => (c :: h) :: r

/-- Embedding of Python `'\n'.join(lines)`. -/
def joinNL : List (List Char) → List Char
  | [] => []
  | [x] => x
  | x :: y :: xs => x ++ '\n' :: joinNL (y :: xs)

/-- Embedding of the Python substring test `needle in hay`. -/
def isSub (needle : List Char) : List Char → Bool
  | [] => needle.isEmpty
  | c :: t => needle.isPrefixOf (c :: t) || isSub needle t

/-- Embedding of Python `hay.split(needle, 1)[1]`: the text after the
first occurrence of `needle` (unused when `needle` does not occur). -/
def afterSub (needle : List Char) : List Char → List Char
  | [] => []
  | c :: t =>
    if needle.isPrefixOf (c :: t) then (c :: t).drop needle.length
    else afterSub needle t

/-- Embedding of Python `line.lower()`.  `Char.toLower` lowers ASCII
letters; Python also lowers non-ASCII letters, which never occur in the
end-marker patterns this is compared against. -/
def pyLower (l : List Char) : List Char := l.map Char.toLower

/-- The decorative box-drawing characters removed by strategy 1 of
`extract_final_result` (app.py line 88). -/
def DECOR1 : List Char :=
  ['╭', '│', '╰', '═', '─', '└', '├', '┤', '┬', '┴', '┼', '╔', '╗', '╚',
   '╝', '║', '╠', '╣', '╦', '╩', '╬', '▓', '▒', '░']

/-- The additional emoji glyphs removed by strategy 2 (app.py line 113). -/
def EMOJI2 : List Char := ['🚀', '📋', '🔧', '✅']

/-- Remove every character belonging to `set` (embedding of the
character-class `re.sub(..., '', line)` calls). -/
def removeChars (set : List Char) (l : List Char) : List Char :=
  l.filter (fun c => !(set.contains c))

/-- Strategy-1 line cleaning: decorative characters removed, then
stripped (app.py lines 88-89). -/
def cleanLine1 (l : List Char) : List Char := pyStripList (removeChars DECOR1 l)

/-- Strategy-2 line cleaning: decorative characters and emoji removed,
then stripped (app.py lines 113-114). -/
def cleanLine2 (l : List Char) : List Char :=
  pyStripList (removeChars (DECOR1 ++ EMOJI2) l)

/-- The literal marker token of strategy 1. -/
def MARKL : List Char := "FINAL RESULT:".data

/-- The second disjunct of app.py line 71: fifty equals signs, a newline
and the marker (the source writes the equals signs as one literal),
tested against the whole transcript. -/
def BIGL : List Char :=
  List.replicate 50 '=' ++ ("\nFINAL RESULT:").data

/-- The two label phrases of strategy 2 (app.py line 102). -/
def FA1L : List Char := "Final Answer:".data

def FA2L : List Char := "## Final Answer".data

/-- The end-of-answer patterns of strategy 2, matched against the lowered
raw line (app.py lines 117-120). -/
def END_PATTERNSL : List (List Char) :=
  ["crew execution completed".data, "task completion".data,
   "crew completion".data, "└──".data, "assigned to:".data,
   "status:".data, "used".data]

/-- The UI-chrome markers of strategy 3 (app.py line 136). -/
def CHROMEL : List (List Char) :=
  ["╭".data, "│".data, "╰".data, "🚀".data, "📋".data, "└──".data,
   "Assigned to:".data, "Status:".data]

def isChrome (l : List Char) : Bool := CHROMEL.any (fun p => isSub p l)

def isEnd (l : List Char) : Bool :=
  END_PATTERNSL.any (fun p => isSub p (pyLower l))

/-- First index whose line satisfies `p` (the `for i, line in enumerate`
search with `break`). -/
def findFirst (p : List Char → Bool) : List (List Char) → Option Nat
  | [] => none
  | l :: rest => if p l then some 0 else (findFirst p rest).map (· + 1)

/-- Embedding of the marker search of app.py lines 69-73: the loop tests
`"FINAL RESULT:" in line or BIG in output` for each index in turn, so if
`BIG` occurs anywhere in the transcript the answer is index 0, otherwise
it is the first line containing the marker. -/
def findMarkerStart (output : List Char) (lines : List (List Char)) : Option Nat :=
  if isSub BIGL output then some 0
  else findFirst (fun l => isSub MARKL l) lines

/-- The accumulator loop of strategy 1 (app.py lines 77-92). -/
def strat1Go : List (List Char) → List (List Char) → List (List Char)
  | [], acc => acc
  | line :: rest, acc =>
    if isSub MARKL line then
      let after := pyStripList (afterSub MARKL line)
      if after ≠ [] then strat1Go rest (acc ++ [after]) else strat1Go rest acc
    else
      let cl := cleanLine1 line
      if cl ≠ [] then strat1Go rest (acc ++ [cl]) else strat1Go rest acc

/-- Strategy 1 of `extract_final_result` (app.py lines 68-95); `none`
means the strategy produced nothing and the cascade falls through. -/
def strat1 (output : List Char) : Option (List Char) :=
  let lines := splitNL output
  match findMarkerStart output lines with
  | none => none
  | some i =>
    let rls := strat1Go (lines.drop i) []
    if rls = [] then none else some (pyStripList (joinNL rls))

/-- The capture loop of strategy 2 (app.py lines 98-125); returning the
accumulator early models the `break` on an end pattern. -/
def strat2Go : List (List Char) → Bool → List (List Char) → List (List Char)
  | [], _, acc => acc
  | line :: rest, capturing, acc =>
    if isSub FA2L line || isSub FA1L line then
      let acc' :=
        if isSub FA1L line then
          let c := pyStripList (afterSub FA1L line)
          if c ≠ [] then acc ++ [c] else acc
        else acc
      strat2Go rest true acc'
    else if capturing then
      if isEnd line then acc
      else
        let cleaned := cleanLine2 line
        if cleaned ≠ [] ∧ 10 < cleaned.length then
          strat2Go rest true (acc ++ [cleaned])
        else strat2Go rest true acc
    else strat2Go rest false acc

/-- Strategy 2 of `extract_final_result` (app.py lines 97-128). -/
def strat2 (output : List Char) : Option (List Char) :=
  let fal := strat2Go (splitNL output) false []
  if fal = [] then none else some (pyStripList (joinNL fal))

/-- The block-accumulation loop of strategy 3 (app.py lines 131-151):
`blocks` holds the already-joined substantial blocks, `current` the
stripped lines of the block being built. -/
def strat3Go : List (List Char) → List (List Char) → List (List Char) →
    List (List Char)
  | [], blocks, current =>
    if current = [] then blocks else blocks ++ [joinNL current]
  | line :: rest, blocks, current =>
    if isChrome line then
      strat3Go rest
        (if current = [] then blocks else blocks ++ [joinNL current]) []
    else
      let cleaned := pyStripList line
      if cleaned ≠ [] ∧ 30 < cleaned.length then
        strat3Go rest blocks (current ++ [cleaned])
      else if current ≠ [] then strat3Go rest (blocks ++ [joinNL current]) []
      else strat3Go rest blocks current

/-- Strategy 3 of `extract_final_result` (app.py lines 130-155). -/
def strat3 (output : List Char) : Option (List Char) :=
  match (strat3Go (splitNL output) [] []).getLast? with
  | some b => some (pyStripList b)
  | none => none

/-- The fixed fallback sentence (app.py line 157). -/
def FALLBACK : String :=
  "Research completed successfully. Please check the console output for detailed results."

/-- The cascade of strategies 2 and 3 followed by the fallback. -/
def strat23 (output : List Char) : List Char :=
  match strat2 output with
  | some r => r
  | none =>
    match strat3 output with
    | some r => r
    | none => FALLBACK.data

/-- `extract_final_result` on character lists: strategy 1, else the
strategies-2-and-3 cascade. -/
def extractCore (output : List Char) : List Char :=
  match strat1 output with
  | some r => r
  | none => strat23 output

/-- Embedding of app.py's `extract_final_result` (lines 64-157). -/
def extract_final_result (output : String) : String := ⟨extractCore output.data⟩

/-! ### ANSI stripping (app.py, `main`, lines 229-231)

`re.compile(r'\x1b\[[\d;]*m').sub('', result_text)`: `re.sub` removes the
non-overlapping matches found in one left-to-right scan.  `\d` is
modelled as an ASCII digit (Python's `\d` also matches non-ASCII decimal
digits, which never occur here). -/

/-- Drop the `[\d;]*` part of the pattern. -/
def dropDS (l : List Char) : List Char :=
  l.dropWhile (fun c => c.isDigit || c == ';')

/-- Try to match `\[[\d;]*m` at the start of `l` (the part of the ANSI
pattern after the escape character); on success return the rest of the
input after the match. -/
def matchAnsi : List Char → Option (List Char)
  | [] => none
  | c :: t =>
    if c = '[' then
      match dropDS t with
      | [] => none
      | m :: r => if m = 'm' then some r else none
    else none

theorem dropDS_length_le (l : List Char) : (dropDS l).length ≤ l.length := by
  induction l with
  | nil => simp [dropDS]
  | cons c t ih =>
    by_cases h : (c.isDigit || c == ';') = true
    · simpa [dropDS, List.dropWhile, h] using Nat.le_succ_of_le ih
    · simp [dropDS, List.dropWhile, h]

theorem matchAnsi_length {l r : List Char} (h : matchAnsi l = some r) :
    r.length + 1 < l.length := by
  cases l with
  | nil => simp [matchAnsi] at h
  | cons c t =>
    simp only [matchAnsi] at h
    by_cases hc : c = '['
    · rw [if_pos hc] at h
      rcases hd : dropDS t with _ | ⟨m, r'⟩ <;> rw [hd] at h
      · simp at h
      · dsimp only at h
        by_cases hm : m = 'm'
        · rw [if_pos hm] at h
          injection h with h
          subst h
          have hle := dropDS_length_le t
          rw [hd] at hle
          simp only [List.length_cons] at hle ⊢
          omega
        · rw [if_neg hm] at h
          simp at h
    · rw [if_neg hc] at h
      simp at h

/-- One left-to-right pass of `re.sub(r'\x1b\[[\d;]*m', '', s)`,
written with an explicit fuel argument so that it is structurally
recursive and computable by the kernel: at each position, if the pattern
matches, the match is removed and scanning resumes after it; otherwise
the character is kept.  Every recursive call strictly shortens the
input, so fuel equal to the input length (as used by `ansiStrip`) is
never exhausted. -/
def ansiStripGo : Nat → List Char → List Char
  | 0, l => l
  | _ + 1, [] => []
  | n + 1, c :: rest =>
    if c = '\x1b' then
      match matchAnsi rest with
      | some r => ansiStripGo n r
      | none => c :: ansiStripGo n rest
    else c :: ansiStripGo n rest

def ansiStrip (l : List Char) : List Char := ansiStripGo l.length l

/-- The always-applied cleaning step of app.py's `main` (lines 229-231). -/
def stripAnsi (s : String) : String := ⟨ansiStrip s.data⟩

/-- `escOk l` holds when every escape character in `l` begins a complete
`\x1b\[[\d;]*m` sequence. -/
def escOk : List Char → Bool
  | [] => true
  | c :: rest => (if c = '\x1b' then (matchAnsi rest).isSome else true) && escOk rest

/-! ### `run_research` (app.py, lines 25-62) -/

/-- The possible outcomes of the `main.py` subprocess as observed by
`run_research`: normal completion with an exit code and captured
stdout/stderr, expiry of the 300-second timeout, or any other exception
raised during communication. -/
inductive ProcOutcome where
  | completed (returncode : Int) (stdout stderr : String)
  | timedOut
  | failed (msg : String)

/-- Embedding of app.py's `run_research` (lines 35-62): the
`(result, error)` pair returned to the UI. -/
def run_research : ProcOutcome → Option String × Option String
  | .completed code stdout stderr =>
    if code = 0 then (some (extract_final_result stdout), none)
    else (none, some ("Error (return code " ++ toString code ++ "):\n" ++ stderr))
  | .timedOut => (none, some "Research timed out after 5 minutes")
  | .failed msg => (none, some ("Unexpected error: " ++ msg))

/-! ### Provider selection (main.py, lines 21-90)

`LLM(...)` is a constructor of the external agent framework; whether it
raises for a given candidate is outside this repository, so it is a
parameter (`constructOk`) of the embedding, as is the environment
(`env v = none` models an unset variable).  The `temperature=0.7` field,
identical on every candidate, is a float and is omitted from the
descriptor. -/

structure LLMConfig where
  name : String
  model : String
  api_key_env : Option String
deriving DecidableEq, Repr

/-- The fixed four-entry provider list of main.py lines 23-48. -/
def llm_configs : List LLMConfig :=
  [{ name := "Groq Llama", model := "groq/llama-3.3-70b-versatile",
     api_key_env := some "GROQ_API_KEY" },
   { name := "OpenAI GPT-4", model := "gpt-4o-mini",
     api_key_env := some "OPENAI_API_KEY" },
   { name := "Anthropic Claude", model := "claude-3-haiku-20240307",
     api_key_env := some "ANTHROPIC_API_KEY" },
   { name := "Ollama Local", model := "ollama/llama3.2",
     api_key_env := none }]

/-- The observable arguments of a successful `LLM(...)` construction:
model, the api_key argument if one was passed, and max_tokens if passed. -/
structure LLMHandle where
  model : String
  api_key : Option String
  max_tokens : Option Nat
deriving DecidableEq, Repr

/-- The handle constructed for a candidate (main.py lines 57-61 for the
keyless case, 68-72 for the keyed case). -/
def handleOf (c : LLMConfig) (key : Option String) : LLMHandle :=
  match c.api_key_env with
  | none => { model := c.model, api_key := none, max_tokens := some 1000 }
  | some _ => { model := c.model, api_key := key, max_tokens := none }

/-- The loop of main.py lines 52-79: try each candidate in order; a keyed
candidate is attempted only when its variable is set to a non-empty
string (Python truthiness of `os.getenv`); a construction failure falls
through to the next candidate. -/
def getLLMGo (env : String → Option String) (constructOk : LLMHandle → Bool) :
    List LLMConfig → Option LLMHandle
  | [] => none
  | c :: rest =>
    match c.api_key_env with
    | none =>
      let h := handleOf c none
      if constructOk h then some h else getLLMGo env constructOk rest
    | some v =>
      match env v with
      | some key =>
        if key ≠ "" then
          let h := handleOf c (some key)
          if constructOk h then some h else getLLMGo env constructOk rest
        else getLLMGo env constructOk rest
      | none => getLLMGo env constructOk rest

/-- The hard-coded fallback of main.py lines 83-87:
`LLM(model="groq/llama-3.3-70b-versatile", api_key=os.getenv("GROQ_API_KEY", ""))`. -/
def groqFallback (env : String → Option String) : LLMHandle :=
  { model := "groq/llama-3.3-70b-versatile",
    api_key := some ((env "GROQ_API_KEY").getD ""),
    max_tokens := none }

/-- Embedding of main.py's `get_available_llm` (lines 21-87). -/
def get_available_llm (env : String → Option String)
    (constructOk : LLMHandle → Bool) : LLMHandle :=
  match getLLMGo env constructOk llm_configs with
  | some h => h
  | none => groqFallback env

/-! ### Server probing (main.py, lines 105-225) -/

/-- Python `int(...)` on the first dot-separated component: strip
whitespace, allow an optional sign, then require a non-empty digit
string.  (Underscore digit grouping, accepted by Python, is not
modelled; version strings never contain it.) -/
def pyParseInt (l : List Char) : Option Int :=
  let t := pyStripList l
  match t with
  | '-' :: ds => if ds ≠ [] ∧ ds.all Char.isDigit then some (-(ofDigits ds)) else none
  | '+' :: ds => if ds ≠ [] ∧ ds.all Char.isDigit then some (ofDigits ds) else none
  | ds => if ds ≠ [] ∧ ds.all Char.isDigit then some (ofDigits ds) else none
where
  ofDigits (ds : List Char) : Int :=
    ds.foldl (fun acc c => acc * 10 + (c.toNat - '0'.toNat : Int)) 0

/-- Embedding of main.py's `check_node_version` (lines 206-225).  The
argument is `some stdout` when `node --version` ran and exited with code
0, and `none` when it exited nonzero or raised.  The parse failure of
`int(...)` is caught by the `except` and yields `False`. -/
def check_node_version (nodeOut : Option String) : Bool :=
  match nodeOut with
  | none => false
  | some out =>
    let version := pyStripList out.data
    match pyParseInt ((version.dropWhile (· == 'v')).takeWhile (· ≠ '.')) with
    | none => false
    | some major => if 18 ≤ major then true else false

/-- A configured MCP server as assembled by `get_working_servers`: its
display name and launch command (the argument lists and environment
overrides, which the claims do not touch, are elided). -/
structure ServerEntry where
  name : String
  command : String
deriving DecidableEq, Repr

/-- Embedding of main.py's `get_working_servers` (lines 140-204).  The
probe results are parameters: `imageExists` / `searchExists` are the
server-file existence checks, `npxOk` is `check_npx_availability`, and
`nodeOut` feeds `check_node_version`; `npxCmd` is the platform-dependent
npx command name. -/
def get_working_servers (imageExists searchExists npxOk : Bool)
    (nodeOut : Option String) (npxCmd : String) : List ServerEntry :=
  (if imageExists then [{ name := "Image Server", command := "python" }] else []) ++
  (if searchExists then [{ name := "Python Search Server", command := "python" }] else []) ++
  (if npxOk then
    (if check_node_version nodeOut then
      [{ name := "Filesystem Server", command := npxCmd }]
     else [])
   else [])

/-! ### Search count clamping (servers/search_server.py) -/

/-- The request parameters assembled by `brave_search` (search_server.py
lines 56-75) once the API key is configured; `count` is clamped by
`count = max(1, min(count, 20))`. -/
structure SearchParams where
  q : String
  count : Int
  search_lang : String
  country : String
  safesearch : String
  freshness : String
deriving DecidableEq, Repr

def brave_search_params (query : String) (count : Int) : SearchParams :=
  { q := query, count := max 1 (min count 20), search_lang := "en",
    country := "US", safesearch := "moderate", freshness := "pw" }

/-- The request parameters assembled by `search_news` (search_server.py
lines 172-191); the same clamp, with past-day freshness. -/
def search_news_params (query : String) (count : Int) : SearchParams :=
  { q := query, count := max 1 (min count 20), search_lang := "en",
    country := "US", safesearch := "moderate", freshness := "pd" }

/-! ### Helper definitions used to state the claims -/

/-- What strategy 2 keeps of a captured line: the cleaned line, provided
it is longer than 10 characters (app.py lines 123-125). -/
def cap2 (l : List Char) : Option (List Char) :=
  let c := cleanLine2 l
  if c ≠ [] ∧ 10 < c.length then some c else none

/-- What strategy 2 appends for a line containing a label phrase: the
stripped text after the first `Final Answer:` when the line contains
that label and the text is non-blank; a line triggering only via
`## Final Answer` contributes nothing (app.py lines 104-108).  No
length check is applied here. -/
def faHead (l : List Char) : List (List Char) :=
  if isSub FA1L l = true then
    (let c := pyStripList (afterSub FA1L l)
     if c ≠ [] then [c] else [])
  else []

/-- A line that extends a strategy-3 block: not UI chrome and of
stripped length above 30 (app.py lines 136-144). -/
def keepLine (l : List Char) : Bool :=
  !(isChrome l) && (!(pyStripList l).isEmpty && decide (30 < (pyStripList l).length))

/-- Modelled from the spec, for comparison against the code (claim C4):
the claim's reading of strategy 3, in which a run is ended *only* by a
blank or UI-chrome line, while a non-blank line of stripped length 30 or
less is merely skipped without ending the run. -/
def claimC4Blocks : List (List Char) → List (List Char) → List (List Char) →
    List (List Char)
  | [], blocks, current =>
    if current = [] then blocks else blocks ++ [joinNL current]
  | line :: rest, blocks, current =>
    if isChrome line || (pyStripList line).isEmpty then
      claimC4Blocks rest
        (if current = [] then blocks else blocks ++ [joinNL current]) []
    else if 30 < (pyStripList line).length then
      claimC4Blocks rest blocks (current ++ [pyStripList line])
    else claimC4Blocks rest blocks current

/-- Modelled from the spec (claim C4): the last run under the claim's
run-boundary reading. -/
def claimC4Result (output : List Char) : Option (List Char) :=
  (claimC4Blocks (splitNL output) [] []).getLast?.map pyStripList

/-- The handle the keyless Ollama candidate constructs (main.py 57-61). -/
def ollamaHandle : LLMHandle :=
  { model := "ollama/llama3.2", api_key := none, max_tokens := some 1000 }

/-- The hard-coded Groq fallback descriptor when `GROQ_API_KEY` is unset
(main.py 83-87 with `os.getenv("GROQ_API_KEY", "")` returning `""`). -/
def groqEmptyKeyHandle : LLMHandle :=
  { model := "groq/llama-3.3-70b-versatile", api_key := some "", max_tokens := none }

/-! ## Basic lemmas about the string embeddings -/

theorem dropWhile_nil_all {α} (p : α → Bool) :
    ∀ l : List α, l.dropWhile p = [] → ∀ c ∈ l, p c = true := by
  intro l
  induction l with
  | nil => simp
  | cons a t ih =>
    intro h c hc
    by_cases hpa : p a = true
    · rcases List.mem_cons.mp hc with rfl | hct
      · exact hpa
      · exact ih (by rwa [List.dropWhile_cons_of_pos hpa] at h) c hct
    · rw [List.dropWhile_cons_of_neg hpa] at h
      cases h

theorem head_dropWhile_false {α} (p : α → Bool) :
    ∀ (l : List α) (c : α) (t : List α), l.dropWhile p = c :: t → p c = false := by
  intro l
  induction l with
  | nil => simp
  | cons a t' ih =>
    intro c t h
    by_cases hpa : p a = true
    · exact ih c t (by rwa [List.dropWhile_cons_of_pos hpa] at h)
    · rw [List.dropWhile_cons_of_neg hpa] at h
      injection h with h1 h2
      rw [← h1]
      simpa using hpa

theorem mem_takeWhile_sat {α} (p : α → Bool) :
    ∀ l : List α, ∀ c ∈ l.takeWhile p, p c = true := by
  intro l
  induction l with
  | nil => simp
  | cons a t ih =>
    intro c hc
    by_cases hpa : p a = true
    · rw [List.takeWhile_cons_of_pos hpa] at hc
      rcases List.mem_cons.mp hc with rfl | hct
      · exact hpa
      · exact ih c hct
    · rw [List.takeWhile_cons_of_neg hpa] at hc
      cases hc

theorem pyStripList_nil_all {l : List Char} (h : pyStripList l = []) :
    ∀ c ∈ l, isPySpace c = true := by
  intro c hc
  unfold pyStripList at h
  have hv : (l.dropWhile isPySpace).reverse.dropWhile isPySpace = [] := by
    have := congrArg List.reverse h
    simpa using this
  have hall : ∀ c ∈ l.dropWhile isPySpace, isPySpace c = true := by
    intro c' hc'
    exact dropWhile_nil_all isPySpace _ hv c' (List.mem_reverse.mpr hc')
  have hsplit := List.takeWhile_append_dropWhile isPySpace l
  rw [← hsplit] at hc
  rcases List.mem_append.mp hc with h1 | h2
  · exact mem_takeWhile_sat isPySpace l c h1
  · exact hall c h2

theorem pyStripList_has_nonspace {l : List Char} (h : pyStripList l ≠ []) :
    ∃ c ∈ pyStripList l, isPySpace c = false := by
  unfold pyStripList at h ⊢
  rcases hv : (l.dropWhile isPySpace).reverse.dropWhile isPySpace with _ | ⟨c, t⟩
  · rw [hv] at h
    simp at h
  · refine ⟨c, ?_, head_dropWhile_false isPySpace _ c t hv⟩
    simp

theorem joinNL_cons_cons (x y : List Char) (xs : List (List Char)) :
    joinNL (x :: y :: xs) = x ++ '\n' :: joinNL (y :: xs) := rfl

theorem mem_joinNL {c : Char} :
    ∀ {ls : List (List Char)} {x : List Char}, x ∈ ls → c ∈ x → c ∈ joinNL ls := by
  intro ls
  induction ls with
  | nil => intro x hx; cases hx
  | cons h t ih =>
    intro x hx hc
    rcases t with _ | ⟨y, t'⟩
    · rcases List.mem_cons.mp hx with rfl | hx'
      · exact hc
      · cases hx'
    · rw [joinNL_cons_cons]
      rcases List.mem_cons.mp hx with rfl | hx'
      · exact List.mem_append.mpr (Or.inl hc)
      · exact List.mem_append.mpr (Or.inr (List.mem_cons.mpr (Or.inr (ih hx' hc))))

/-- An element of a nonempty list of strings each containing a
non-whitespace character makes the newline-join strip to a nonempty
string. -/
theorem pyStripList_joinNL_ne {ls : List (List Char)} (hne : ls ≠ [])
    (hall : ∀ e ∈ ls, ∃ c ∈ e, isPySpace c = false) :
    pyStripList (joinNL ls) ≠ [] := by
  rcases ls with _ | ⟨e, t⟩
  · exact absurd rfl hne
  · obtain ⟨c, hce, hc⟩ := hall e (List.mem_cons.mpr (Or.inl rfl))
    intro hni
    have := pyStripList_nil_all hni c (mem_joinNL (List.mem_cons.mpr (Or.inl rfl)) hce)
    rw [this] at hc
    cases hc

/-! ## Nonemptiness of each strategy's successful result (C1) -/

theorem strat1Go_inv :
    ∀ (lines acc : List (List Char)),
      (∀ e ∈ acc, ∃ c ∈ e, isPySpace c = false) →
      ∀ e ∈ strat1Go lines acc, ∃ c ∈ e, isPySpace c = false := by
  intro lines
  induction lines with
  | nil => intro acc hacc; simpa [strat1Go] using hacc
  | cons line rest ih =>
    intro acc hacc e he
    have happ : ∀ (z : List Char), z ≠ [] → (∃ x, z = pyStripList x) →
        ∀ e ∈ acc ++ [z], ∃ c ∈ e, isPySpace c = false := by
      rintro z hz ⟨x, rfl⟩ e he
      rcases List.mem_append.mp he with h1 | h2
      · exact hacc e h1
      · rcases List.mem_singleton.mp h2 with rfl
        exact pyStripList_has_nonspace hz
    by_cases hm : isSub MARKL line = true
    · by_cases ha : pyStripList (afterSub MARKL line) ≠ []
      · rw [show strat1Go (line :: rest) acc =
            strat1Go rest (acc ++ [pyStripList (afterSub MARKL line)]) by
          simp [strat1Go, hm, ha]] at he
        exact ih _ (happ _ ha ⟨_, rfl⟩) e he
      · rw [show strat1Go (line :: rest) acc = strat1Go rest acc by
          simp [strat1Go, hm, ha]] at he
        exact ih _ hacc e he
    · have hm' : isSub MARKL line = false := by simpa using hm
      by_cases hcl : cleanLine1 line ≠ []
      · rw [show strat1Go (line :: rest) acc =
            strat1Go rest (acc ++ [cleanLine1 line]) by
          simp [strat1Go, hm', hcl]] at he
        exact ih _ (happ _ hcl ⟨_, rfl⟩) e he
      · rw [show strat1Go (line :: rest) acc = strat1Go rest acc by
          simp [strat1Go, hm', hcl]] at he
        exact ih _ hacc e he

theorem strat2Go_inv :
    ∀ (lines : List (List Char)) (cap : Bool) (acc : List (List Char)),
      (∀ e ∈ acc, ∃ c ∈ e, isPySpace c = false) →
      ∀ e ∈ strat2Go lines cap acc, ∃ c ∈ e, isPySpace c = false := by
  intro lines
  induction lines with
  | nil => intro cap acc hacc; simpa [strat2Go] using hacc
  | cons line rest ih =>
    intro cap acc hacc e he
    have happ : ∀ (z : List Char), z ≠ [] → (∃ x, z = pyStripList x) →
        ∀ e ∈ acc ++ [z], ∃ c ∈ e, isPySpace c = false := by
      rintro z hz ⟨x, rfl⟩ e he
      rcases List.mem_append.mp he with h1 | h2
      · exact hacc e h1
      · rcases List.mem_singleton.mp h2 with rfl
        exact pyStripList_has_nonspace hz
    by_cases hfa : (isSub FA2L line || isSub FA1L line) = true
    · by_cases hfa1 : isSub FA1L line = true
      · by_cases hc : pyStripList (afterSub FA1L line) ≠ []
        · rw [show strat2Go (line :: rest) cap acc =
              strat2Go rest true (acc ++ [pyStripList (afterSub FA1L line)]) by
            simp [strat2Go, hfa, hfa1, hc]] at he
          exact ih _ _ (happ _ hc ⟨_, rfl⟩) e he
        · rw [show strat2Go (line :: rest) cap acc = strat2Go rest true acc by
            simp [strat2Go, hfa, hfa1, hc]] at he
          exact ih _ _ hacc e he
      · have hfa1' : isSub FA1L line = false := by simpa using hfa1
        have hfa2 : isSub FA2L line = true := by simpa [hfa1'] using hfa
        rw [show strat2Go (line :: rest) cap acc = strat2Go rest true acc by
          simp [strat2Go, hfa2, hfa1']] at he
        exact ih _ _ hacc e he
    · have hb : isSub FA2L line = false ∧ isSub FA1L line = false := by
        simpa using hfa
      cases cap with
      | false =>
        rw [show strat2Go (line :: rest) false acc = strat2Go rest false acc by
          simp [strat2Go, hb.1, hb.2]] at he
        exact ih _ _ hacc e he
      | true =>
        by_cases hend : isEnd line = true
        · rw [show strat2Go (line :: rest) true acc = acc by
            simp [strat2Go, hb.1, hb.2, hend]] at he
          exact hacc e he
        · have hend' : isEnd line = false := by simpa using hend
          by_cases hcl : cleanLine2 line ≠ [] ∧ 10 < (cleanLine2 line).length
          · rw [show strat2Go (line :: rest) true acc =
                strat2Go rest true (acc ++ [cleanLine2 line]) by
              simp [strat2Go, hb.1, hb.2, hend', hcl]] at he
            exact ih _ _ (happ _ hcl.1 ⟨_, rfl⟩) e he
          · rw [show strat2Go (line :: rest) true acc = strat2Go rest true acc by
              simp [strat2Go, hb.1, hb.2, hend', hcl]] at he
            exact ih _ _ hacc e he

theorem strat3Go_inv :
    ∀ (lines blocks current : List (List Char)),
      (∀ e ∈ blocks, ∃ c ∈ e, isPySpace c = false) →
      (∀ e ∈ current, ∃ c ∈ e, isPySpace c = false) →
      ∀ e ∈ strat3Go lines blocks current, ∃ c ∈ e, isPySpace c = false := by
  intro lines
  induction lines with
  | nil =>
    intro blocks current hb hc e he
    by_cases hcur : current = []
    · subst hcur
      exact hb e (by simpa [strat3Go] using he)
    · rw [show strat3Go [] blocks current = blocks ++ [joinNL current] by
        simp [strat3Go, hcur]] at he
      rcases List.mem_append.mp he with h1 | h2
      · exact hb e h1
      · rcases List.mem_singleton.mp h2 with rfl
        rcases current with _ | ⟨e0, t⟩
        · exact absurd rfl hcur
        · obtain ⟨c, hce, hcs⟩ := hc e0 (List.mem_cons.mpr (Or.inl rfl))
          exact ⟨c, mem_joinNL (List.mem_cons.mpr (Or.inl rfl)) hce, hcs⟩
    | cons line rest ih =>
    intro blocks current hb hc e he
    have hclose : (∀ e ∈ (if current = [] then blocks else blocks ++ [joinNL current]),
        ∃ c ∈ e, isPySpace c = false) := by
      by_cases hcur : current = []
      · simpa [hcur] using hb
      · rw [if_neg hcur]
        intro e he
        rcases List.mem_append.mp he with h1 | h2
        · exact hb e h1
        · rcases List.mem_singleton.mp h2 with rfl
          rcases current with _ | ⟨e0, t⟩
          · exact absurd rfl hcur
          · obtain ⟨c, hce, hcs⟩ := hc e0 (List.mem_cons.mpr (Or.inl rfl))
            exact ⟨c, mem_joinNL (List.mem_cons.mpr (Or.inl rfl)) hce, hcs⟩
    by_cases hchr : isChrome line = true
    · rw [show strat3Go (line :: rest) blocks current =
          strat3Go rest (if current = [] then blocks else blocks ++ [joinNL current]) [] by
        simp [strat3Go, hchr]] at he
      exact ih _ _ hclose (by simp) e he
    · have hchr' : isChrome line = false := by simpa using hchr
      by_cases hkeep : pyStripList line ≠ [] ∧ 30 < (pyStripList line).length
      · rw [show strat3Go (line :: rest) blocks current =
            strat3Go rest blocks (current ++ [pyStripList line]) by
          simp [strat3Go, hchr', hkeep]] at he
        refine ih _ _ hb ?_ e he
        intro e' he'
        rcases List.mem_append.mp he' with h1 | h2
        · exact hc e' h1
        · rcases List.mem_singleton.mp h2 with rfl
          exact pyStripList_has_nonspace hkeep.1
      · by_cases hcur : current ≠ []
        · rw [show strat3Go (line :: rest) blocks current =
              strat3Go rest (blocks ++ [joinNL current]) [] by
            simp [strat3Go, hchr', hkeep, hcur]] at he
          refine ih _ _ ?_ (by simp) e he
          simpa [if_neg hcur] using hclose
        · rw [show strat3Go (line :: rest) blocks current =
              strat3Go rest blocks current by
            simp [strat3Go, hchr', hkeep, hcur]] at he
          exact ih _ _ hb hc e he

theorem strat1_some_ne {o r : List Char} (h : strat1 o = some r) : r ≠ [] := by
  simp only [strat1] at h
  rcases hf : findMarkerStart o (splitNL o) with _ | i <;> rw [hf] at h
  · simp at h
  · dsimp only at h
    by_cases hrls : strat1Go ((splitNL o).drop i) [] = []
    · rw [if_pos hrls] at h
      simp at h
    · rw [if_neg hrls] at h
      have hr := Option.some.inj h
      have hall := strat1Go_inv ((splitNL o).drop i) [] (by simp)
      rw [← hr]
      exact pyStripList_joinNL_ne hrls hall

theorem strat2_some_ne {o r : List Char} (h : strat2 o = some r) : r ≠ [] := by
  simp only [strat2] at h
  by_cases hfal : strat2Go (splitNL o) false [] = []
  · rw [if_pos hfal] at h
    simp at h
  · rw [if_neg hfal] at h
    have hr := Option.some.inj h
    have hall := strat2Go_inv (splitNL o) false [] (by simp)
    rw [← hr]
    exact pyStripList_joinNL_ne hfal hall

theorem strat3_some_ne {o r : List Char} (h : strat3 o = some r) : r ≠ [] := by
  simp only [strat3] at h
  rcases hl : (strat3Go (splitNL o) [] []).getLast? with _ | b <;> rw [hl] at h
  · simp at h
  · have hr := Option.some.inj h
    have hmem : b ∈ strat3Go (splitNL o) [] [] :=
      List.mem_of_mem_getLast? (by rw [hl]; exact Option.mem_some_iff.mpr rfl)
    obtain ⟨c, hcb, hcs⟩ := strat3Go_inv (splitNL o) [] [] (by simp) (by simp) b hmem
    rw [← hr]
    intro hni
    have := pyStripList_nil_all hni c hcb
    rw [this] at hcs
    cases hcs

theorem extractCore_ne_nil (o : List Char) : extractCore o ≠ [] := by
  unfold extractCore strat23
  rcases h1 : strat1 o with _ | r1
  · rcases h2 : strat2 o with _ | r2
    · rcases h3 : strat3 o with _ | r3
      · simp [FALLBACK]
      · simpa using strat3_some_ne h3
    · simpa using strat2_some_ne h2
  · simpa using strat1_some_ne h1

/-! ## Split/join round trip -/

theorem splitNL_ne_nil : ∀ l : List Char, splitNL l ≠ [] := by
  intro l
  induction l with
  | nil => simp [splitNL]
  | cons c t ih =>
    by_cases hc : c = '\n'
    · simp [splitNL, hc]
    · rcases hs : splitNL t with _ | ⟨h, r⟩
      · exact absurd hs ih
      · simp [splitNL, hc, hs]

theorem splitNL_no_nl {x : List Char} (hx : ('\n' : Char) ∉ x) :
    splitNL x = [x] := by
  induction x with
  | nil => simp [splitNL]
  | cons c t ih =>
    have hc : c ≠ '\n' := fun h => hx (h ▸ List.mem_cons.mpr (Or.inl rfl))
    have ht : ('\n' : Char) ∉ t := fun h => hx (List.mem_cons.mpr (Or.inr h))
    simp [splitNL, hc, ih ht]

theorem splitNL_append_cons {x z : List Char} (hx : ('\n' : Char) ∉ x) :
    splitNL (x ++ '\n' :: z) = x :: splitNL z := by
  induction x with
  | nil => simp [splitNL]
  | cons c t ih =>
    have hc : c ≠ '\n' := fun h => hx (h ▸ List.mem_cons.mpr (Or.inl rfl))
    have ht : ('\n' : Char) ∉ t := fun h => hx (List.mem_cons.mpr (Or.inr h))
    have h2 := ih ht
    simp only [List.cons_append, splitNL, List.append_eq]
    rw [h2]
    simp [hc]

theorem splitNL_joinNL :
    ∀ ls : List (List Char), ls ≠ [] → (∀ l ∈ ls, ('\n' : Char) ∉ l) →
      splitNL (joinNL ls) = ls := by
  intro ls
  induction ls with
  | nil => intro h; exact absurd rfl h
  | cons x t ih =>
    intro _ hnl
    rcases t with _ | ⟨y, t'⟩
    · exact splitNL_no_nl (hnl x (List.mem_cons.mpr (Or.inl rfl)))
    · rw [joinNL_cons_cons]
      rw [splitNL_append_cons (hnl x (List.mem_cons.mpr (Or.inl rfl)))]
      rw [ih (by simp) (fun l hl => hnl l (List.mem_cons.mpr (Or.inr hl)))]

theorem joinNL_splitNL : ∀ l : List Char, joinNL (splitNL l) = l := by
  intro l
  induction l with
  | nil => simp [splitNL, joinNL]
  | cons c t ih =>
    by_cases hc : c = '\n'
    · subst hc
      rcases hs : splitNL t with _ | ⟨h, r⟩
      · exact absurd hs (splitNL_ne_nil t)
      · rw [show splitNL ('\n' :: t) = [] :: h :: r by simp [splitNL, hs]]
        rw [joinNL_cons_cons]
        rw [← hs, ih]
        simp
    · rcases hs : splitNL t with _ | ⟨h, r⟩
      · exact absurd hs (splitNL_ne_nil t)
      · rw [show splitNL (c :: t) = (c :: h) :: r by simp [splitNL, hc, hs]]
        rcases r with _ | ⟨y, r'⟩
        · have h3 : joinNL [h] = t := by rw [hs] at ih; exact ih
          simp only [joinNL] at h3 ⊢
          rw [h3]
        · rw [joinNL_cons_cons]
          have h3 : joinNL (h :: y :: r') = t := by rw [hs] at ih; exact ih
          rw [joinNL_cons_cons] at h3
          simp only [List.cons_append, List.append_assoc] at h3 ⊢
          rw [h3]

/-! ## Substring machinery -/

theorem isPrefixOf_iff' :
    ∀ a b : List Char, a.isPrefixOf b = true ↔ ∃ t, a ++ t = b := by
  intro a
  induction a with
  | nil => intro b; simp [List.isPrefixOf]
  | cons x a' ih =>
    intro b
    rcases b with _ | ⟨y, b'⟩
    · simp [List.isPrefixOf]
    · simp only [List.isPrefixOf, Bool.and_eq_true, beq_iff_eq]
      constructor
      · rintro ⟨rfl, hp⟩
        obtain ⟨t, ht⟩ := (ih b').mp hp
        exact ⟨t, by simp [ht]⟩
      · rintro ⟨t, ht⟩
        injection ht with h1 h2
        exact ⟨h1, (ih b').mpr ⟨t, h2⟩⟩

theorem isSub_iff (n : List Char) :
    ∀ h : List Char, isSub n h = true ↔ ∃ s t, s ++ n ++ t = h := by
  intro h
  induction h with
  | nil =>
    simp only [isSub, List.isEmpty_iff]
    constructor
    · rintro rfl; exact ⟨[], [], rfl⟩
    · rintro ⟨s, t, hst⟩
      rcases List.append_eq_nil.mp (List.append_eq_nil.mp hst).1 with ⟨_, h2⟩
      exact h2
  | cons c t ih =>
    simp only [isSub, Bool.or_eq_true]
    constructor
    · rintro (hp | hs)
      · obtain ⟨u, hu⟩ := (isPrefixOf_iff' n (c :: t)).mp hp
        exact ⟨[], u, by simpa using hu⟩
      · obtain ⟨s, u, hsu⟩ := ih.mp hs
        exact ⟨c :: s, u, by simp [← hsu]⟩
    · rintro ⟨s, u, hsu⟩
      rcases s with _ | ⟨a, s'⟩
      · exact Or.inl ((isPrefixOf_iff' n (c :: t)).mpr ⟨u, by simpa using hsu⟩)
      · right
        apply ih.mpr
        have hsu' : a :: (s' ++ n ++ u) = c :: t := by simpa using hsu
        injection hsu' with h1 h2
        exact ⟨s', u, h2⟩

theorem isSub_trans {a b c : List Char} (h1 : isSub a b = true)
    (h2 : isSub b c = true) : isSub a c = true := by
  obtain ⟨s1, t1, he1⟩ := (isSub_iff a b).mp h1
  obtain ⟨s2, t2, he2⟩ := (isSub_iff b c).mp h2
  exact (isSub_iff a c).mpr ⟨s2 ++ s1, t1 ++ t2, by
    rw [← he2, ← he1]; simp [List.append_assoc]⟩

theorem mem_joinNL_isSub {x : List Char} :
    ∀ {ls : List (List Char)}, x ∈ ls → isSub x (joinNL ls) = true := by
  intro ls
  induction ls with
  | nil => intro hx; cases hx
  | cons h t ih =>
    intro hx
    rcases t with _ | ⟨y, t'⟩
    · rcases List.mem_cons.mp hx with rfl | hx'
      · exact (isSub_iff x x).mpr ⟨[], [], by simp⟩
      · cases hx'
    · rw [joinNL_cons_cons]
      rcases List.mem_cons.mp hx with rfl | hx'
      · exact (isSub_iff _ _).mpr ⟨[], '\n' :: joinNL (y :: t'), by simp⟩
      · obtain ⟨s, u, hsu⟩ := (isSub_iff x (joinNL (y :: t'))).mp (ih hx')
        exact (isSub_iff _ _).mpr ⟨h ++ '\n' :: s, u, by
          rw [← hsu]; simp⟩

theorem mem_splitNL_isSub {x o : List Char} (hx : x ∈ splitNL o) :
    isSub x o = true := by
  have := mem_joinNL_isSub hx
  rwa [joinNL_splitNL] at this

/-! ## Strategy-1 behaviour on decomposed line lists -/

theorem findFirst_pre {p : List Char → Bool} :
    ∀ (pre : List (List Char)) (x : List Char) (rest : List (List Char)),
      (∀ l ∈ pre, p l = false) → p x = true →
      findFirst p (pre ++ x :: rest) = some pre.length := by
  intro pre
  induction pre with
  | nil => intro x rest _ hx; simp [findFirst, hx]
  | cons a pre' ih =>
    intro x rest hpre hx
    have ha : p a = false := hpre a (List.mem_cons.mpr (Or.inl rfl))
    have := ih x rest (fun l hl => hpre l (List.mem_cons.mpr (Or.inr hl))) hx
    simp [findFirst, ha, this]

theorem findFirst_none {p : List Char → Bool} :
    ∀ L : List (List Char), (∀ l ∈ L, p l = false) → findFirst p L = none := by
  intro L
  induction L with
  | nil => intro _; rfl
  | cons a t ih =>
    intro hall
    have ha : p a = false := hall a (List.mem_cons.mpr (Or.inl rfl))
    simp [findFirst, ha, ih (fun l hl => hall l (List.mem_cons.mpr (Or.inr hl)))]

theorem strat1Go_append_all :
    ∀ (L : List (List Char)),
      (∀ l ∈ L, isSub MARKL l = false ∧ cleanLine1 l ≠ []) →
      ∀ acc, strat1Go L acc = acc ++ L.map cleanLine1 := by
  intro L
  induction L with
  | nil => intro _ acc; simp [strat1Go]
  | cons line rest ih =>
    intro hall acc
    have h1 := hall line (List.mem_cons.mpr (Or.inl rfl))
    have h2 := fun l hl => hall l (List.mem_cons.mpr (Or.inr hl))
    rw [show strat1Go (line :: rest) acc = strat1Go rest (acc ++ [cleanLine1 line]) by
      simp [strat1Go, h1.1, h1.2]]
    rw [ih h2]
    simp

theorem strat1Go_skip_all :
    ∀ (L : List (List Char)),
      (∀ l ∈ L, (isSub MARKL l = true → pyStripList (afterSub MARKL l) = []) ∧
        (isSub MARKL l = false → cleanLine1 l = [])) →
      ∀ acc, strat1Go L acc = acc := by
  intro L
  induction L with
  | nil => intro _ acc; simp [strat1Go]
  | cons line rest ih =>
    intro hall acc
    have h1 := hall line (List.mem_cons.mpr (Or.inl rfl))
    have h2 := fun l hl => hall l (List.mem_cons.mpr (Or.inr hl))
    by_cases hm : isSub MARKL line = true
    · rw [show strat1Go (line :: rest) acc = strat1Go rest acc by
        simp [strat1Go, hm, h1.1 hm]]
      exact ih h2 acc
    · have hm' : isSub MARKL line = false := by simpa using hm
      rw [show strat1Go (line :: rest) acc = strat1Go rest acc by
        simp [strat1Go, hm', h1.2 hm']]
      exact ih h2 acc

/-- C2 counterexample: a transcript consisting of the fifty-equals
separator line, the marker line and one answer line.  Because the
big-separator disjunct of app.py line 71 matches the *whole transcript*,
extraction starts at line 0 and the separator line (its `=` characters
are not in the decorative set) is included, so the result is not just
the lines following the marker as the claim states. -/
theorem C2_counterexample :
    extract_final_result ⟨List.replicate 50 '=' ++ ("\nFINAL RESULT:\nA nice answer").data⟩ =
      ⟨List.replicate 50 '=' ++ ("\nA nice answer").data⟩ ∧
    extract_final_result ⟨List.replicate 50 '=' ++ ("\nFINAL RESULT:\nA nice answer").data⟩ ≠
      ("A nice answer" : String) := by
  constructor
  · decide
  · decide

/-- C2 (amended): when the transcript does *not* contain the
fifty-equals-plus-marker substring, extraction starts at the first line
containing the marker: the result is the stripped trailing content of
the marker line (if non-blank) followed by the subsequent lines, each
with decorative characters removed and stripped, joined by newlines. -/
theorem C2_marker_block (pre tail : List (List Char)) (mline t : List Char)
    (hnl : ∀ l ∈ pre ++ mline :: tail, ('\n' : Char) ∉ l)
    (hbig : isSub BIGL (joinNL (pre ++ mline :: tail)) = false)
    (hpre : ∀ l ∈ pre, isSub MARKL l = false)
    (hm : isSub MARKL mline = true)
    (ht : afterSub MARKL mline = t)
    (htail : ∀ l ∈ tail, isSub MARKL l = false ∧ cleanLine1 l ≠ [])
    (hne : pyStripList t ≠ [] ∨ tail ≠ []) :
    extractCore (joinNL (pre ++ mline :: tail)) =
      pyStripList (joinNL
        ((if pyStripList t = [] then [] else [pyStripList t]) ++
          tail.map cleanLine1)) := by
  set o := joinNL (pre ++ mline :: tail) with ho
  have hlines : splitNL o = pre ++ mline :: tail :=
    splitNL_joinNL _ (by simp) hnl
  have hfind : findMarkerStart o (splitNL o) = some pre.length := by
    rw [findMarkerStart, if_neg (by simp [hbig]), hlines]
    exact findFirst_pre pre mline tail hpre hm
  have hdrop : (splitNL o).drop pre.length = mline :: tail := by
    rw [hlines]
    exact List.drop_left pre (mline :: tail)
  have hgo : strat1Go (mline :: tail) [] =
      (if pyStripList t = [] then [] else [pyStripList t]) ++
        tail.map cleanLine1 := by
    by_cases hts : pyStripList t = []
    · rw [show strat1Go (mline :: tail) [] = strat1Go tail [] by
        simp [strat1Go, hm, ht, hts]]
      rw [strat1Go_append_all tail htail []]
      simp [hts]
    · rw [show strat1Go (mline :: tail) [] = strat1Go tail [pyStripList t] by
        simp [strat1Go, hm, ht, hts]]
      rw [strat1Go_append_all tail htail [pyStripList t]]
      simp [hts]
  have hrls : strat1Go ((splitNL o).drop pre.length) [] ≠ [] := by
    rw [hdrop, hgo]
    rcases hne with h | h
    · simp [h]
    · rcases tail with _ | ⟨a, tl⟩
      · exact absurd rfl h
      · simp
  have hs1 : strat1 o = some (pyStripList (joinNL
      ((if pyStripList t = [] then [] else [pyStripList t]) ++
        tail.map cleanLine1))) := by
    simp only [strat1, hfind]
    rw [if_neg hrls, hdrop, hgo]
  unfold extractCore
  rw [hs1]

/-- Witness for C2_marker_block at a concrete transcript. -/
theorem C2_marker_block_witness :
    extractCore (joinNL [("junk before").data, ("FINAL RESULT: trailer").data,
        ("  line one  ").data, ("line two").data]) =
      pyStripList (joinNL [("trailer").data, ("line one").data, ("line two").data]) := by
  have h := C2_marker_block [("junk before").data] [("  line one  ").data, ("line two").data]
    (("FINAL RESULT: trailer").data) ((" trailer").data)
    (by decide) (by decide) (by decide) (by decide) (by decide) (by decide)
    (Or.inl (by decide))
  simpa using h

/-- C1: for every transcript, `extract_final_result` returns a non-empty
string (and, being a total function, never raises); on the empty
transcript and on a transcript made only of decorative box-drawing
characters it returns the fixed fallback sentence. -/
theorem C1_extract_total_nonempty :
    (∀ output : String, extract_final_result output ≠ "") ∧
    extract_final_result ("") = FALLBACK ∧
    extract_final_result ("╭───\n│  │\n╰──═") = FALLBACK := by
  refine ⟨?_, by decide, by decide⟩
  intro output h
  have hdata : extractCore output.data = [] := congrArg String.data h
  exact extractCore_ne_nil output.data hdata

/-! ## Strategy-2 behaviour on decomposed line lists (C3, C9) -/

theorem strat1_none_of_nomark {o : List Char} (h : isSub MARKL o = false) :
    strat1 o = none := by
  have hbig : isSub BIGL o = false := by
    by_contra hb
    have hb' : isSub BIGL o = true := by simpa using hb
    have hmo : isSub MARKL o = true := isSub_trans (by decide) hb'
    rw [hmo] at h
    cases h
  have hlines : ∀ l ∈ splitNL o, isSub MARKL l = false := by
    intro l hl
    by_contra hm
    have hm' : isSub MARKL l = true := by simpa using hm
    have hmo : isSub MARKL o = true := isSub_trans hm' (mem_splitNL_isSub hl)
    rw [hmo] at h
    cases h
  have hfind : findMarkerStart o (splitNL o) = none := by
    unfold findMarkerStart
    rw [if_neg (by simp [hbig])]
    exact findFirst_none _ hlines
  simp only [strat1, hfind]

theorem strat2Go_pre_skip :
    ∀ (pre rest : List (List Char)) (acc : List (List Char)),
      (∀ l ∈ pre, isSub FA2L l = false ∧ isSub FA1L l = false) →
      strat2Go (pre ++ rest) false acc = strat2Go rest false acc := by
  intro pre
  induction pre with
  | nil => intros; rfl
  | cons a pre' ih =>
    intro rest acc hall
    have ha := hall a (List.mem_cons.mpr (Or.inl rfl))
    rw [List.cons_append]
    rw [show strat2Go (a :: (pre' ++ rest)) false acc =
        strat2Go (pre' ++ rest) false acc by
      simp [strat2Go, ha.1, ha.2]]
    exact ih rest acc (fun l hl => hall l (List.mem_cons.mpr (Or.inr hl)))

theorem strat2Go_capture_mid :
    ∀ (mid rest : List (List Char)) (acc : List (List Char)),
      (∀ l ∈ mid, (isSub FA2L l = false ∧ isSub FA1L l = false) ∧ isEnd l = false) →
      strat2Go (mid ++ rest) true acc =
        strat2Go rest true (acc ++ mid.filterMap cap2) := by
  intro mid
  induction mid with
  | nil => intro rest acc _; simp
  | cons a mid' ih =>
    intro rest acc hall
    have ha := hall a (List.mem_cons.mpr (Or.inl rfl))
    have h2 := fun l hl => hall l (List.mem_cons.mpr (Or.inr hl))
    rw [List.cons_append]
    by_cases hc : cleanLine2 a ≠ [] ∧ 10 < (cleanLine2 a).length
    · have hcap : cap2 a = some (cleanLine2 a) := by simp [cap2, hc]
      rw [show strat2Go (a :: (mid' ++ rest)) true acc =
          strat2Go (mid' ++ rest) true (acc ++ [cleanLine2 a]) by
        simp [strat2Go, ha.1.1, ha.1.2, ha.2, hc]]
      rw [ih rest _ h2]
      simp [List.filterMap_cons, hcap]
    · have hcap : cap2 a = none := by simp only [cap2]; rw [if_neg hc]
      rw [show strat2Go (a :: (mid' ++ rest)) true acc =
          strat2Go (mid' ++ rest) true acc by
        simp [strat2Go, ha.1.1, ha.1.2, ha.2, hc]]
      rw [ih rest _ h2]
      simp [List.filterMap_cons, hcap]

theorem strat2Go_end_stop (endLine : List Char) (post : List (List Char))
    (acc : List (List Char))
    (hfa : isSub FA2L endLine = false ∧ isSub FA1L endLine = false)
    (hend : isEnd endLine = true) :
    strat2Go (endLine :: post) true acc = acc := by
  simp [strat2Go, hfa.1, hfa.2, hend]

theorem cap2_some_length {l e : List Char} (h : cap2 l = some e) : 10 < e.length := by
  simp only [cap2] at h
  by_cases hc : cleanLine2 l ≠ [] ∧ 10 < (cleanLine2 l).length
  · rw [if_pos hc] at h
    injection h with h
    rw [← h]
    exact hc.2
  · rw [if_neg hc] at h
    cases h

/-- C3 counterexample: a subsequent line that contains an end-marker
phrase (`status:`, after lowering) but also contains `Final Answer:`
takes the label branch first (the `continue` at app.py line 109 precedes
the end check), so capture does not stop at the first end-phrase line,
and the 9-character trailing content of that line is appended with no
length check and appears in the result. -/
theorem C3_counterexample :
    extract_final_result
        ("Final Answer: The real answer text\nFinal Answer: status: y\nThis line is long enough to be captured\nCrew Execution Completed blah") =
      ("The real answer text\nstatus: y\nThis line is long enough to be captured") ∧
    isEnd (("Final Answer: status: y").data) = true ∧
    isSub (("status: y").data)
      ((extract_final_result
        ("Final Answer: The real answer text\nFinal Answer: status: y\nThis line is long enough to be captured\nCrew Execution Completed blah")).data) = true ∧
    (cleanLine2 (("status: y").data)).length ≤ 10 := by
  refine ⟨by decide, by decide, by decide, by decide⟩

/-- C3 (amended): a transcript with no `FINAL RESULT:` marker, a label
line containing `Final Answer:` or `## Final Answer`, then captured
lines containing neither a label nor an end-marker phrase, then the
first line that contains an end-marker phrase (matched on the lowered
line) *and no label phrase*: capture stops exactly at that end line,
the end line and everything after it are not included, and every
captured subsequent line has cleaned length above 10.  Lines containing
a label phrase never stop capture: a `Final Answer:` line instead
appends its stripped trailing content with no length check, which is
also how the label line itself contributes (`faHead`). -/
theorem C3_labeled_section (pre mid post : List (List Char))
    (faLine endLine : List Char)
    (hnl : ∀ l ∈ pre ++ faLine :: (mid ++ endLine :: post), ('\n' : Char) ∉ l)
    (hnomark : isSub MARKL (joinNL (pre ++ faLine :: (mid ++ endLine :: post))) = false)
    (hpre : ∀ l ∈ pre, isSub FA2L l = false ∧ isSub FA1L l = false)
    (hfa : isSub FA2L faLine = true ∨ isSub FA1L faLine = true)
    (hmid : ∀ l ∈ mid, (isSub FA2L l = false ∧ isSub FA1L l = false) ∧ isEnd l = false)
    (hend : (isSub FA2L endLine = false ∧ isSub FA1L endLine = false) ∧ isEnd endLine = true)
    (hne : faHead faLine ++ mid.filterMap cap2 ≠ []) :
    extractCore (joinNL (pre ++ faLine :: (mid ++ endLine :: post))) =
      pyStripList (joinNL (faHead faLine ++ mid.filterMap cap2)) ∧
    ∀ e ∈ mid.filterMap cap2, 10 < e.length := by
  set o := joinNL (pre ++ faLine :: (mid ++ endLine :: post)) with ho
  have hlines : splitNL o = pre ++ faLine :: (mid ++ endLine :: post) :=
    splitNL_joinNL _ (by simp) hnl
  have h1 : strat1 o = none := strat1_none_of_nomark hnomark
  have hstep : strat2Go (splitNL o) false [] =
      faHead faLine ++ mid.filterMap cap2 := by
    rw [hlines]
    rw [strat2Go_pre_skip pre _ [] hpre]
    rw [show strat2Go (faLine :: (mid ++ endLine :: post)) false [] =
        strat2Go (mid ++ endLine :: post) true (faHead faLine) by
      rcases hfa with h2 | hl1
      · by_cases hl1 : isSub FA1L faLine = true
        · by_cases hc : pyStripList (afterSub FA1L faLine) ≠ [] <;>
            simp [strat2Go, faHead, h2, hl1, hc]
        · have hl1f : isSub FA1L faLine = false := by simpa using hl1
          simp [strat2Go, faHead, h2, hl1f]
      · by_cases hc : pyStripList (afterSub FA1L faLine) ≠ [] <;>
          simp [strat2Go, faHead, hl1, hc]]
    rw [strat2Go_capture_mid mid _ _ hmid]
    rw [strat2Go_end_stop endLine post _ hend.1 hend.2]
  have h2 : strat2 o = some (pyStripList (joinNL
      (faHead faLine ++ mid.filterMap cap2))) := by
    simp only [strat2, hstep]
    rw [if_neg hne]
  constructor
  · unfold extractCore strat23
    rw [h1, h2]
  · intro e he
    obtain ⟨l, _, hl⟩ := List.mem_filterMap.mp he
    exact cap2_some_length hl

/-- Witness for C3_labeled_section at a concrete transcript. -/
theorem C3_labeled_section_witness :
    extractCore (joinNL [("Intro text here").data, ("Final Answer: short").data,
        ("This captured line is long enough").data, ("tiny one").data,
        ("Status: complete").data, ("after end line").data]) =
      pyStripList (joinNL [("short").data,
        ("This captured line is long enough").data]) := by
  have h := C3_labeled_section [("Intro text here").data]
    [("This captured line is long enough").data, ("tiny one").data]
    [("after end line").data] (("Final Answer: short").data)
    (("Status: complete").data)
    (by decide) (by decide) (by decide) (Or.inr (by decide)) (by decide)
    (by decide) (by decide)
  exact h.1.trans (by decide)

/-- C9: when the marker search succeeds at index `i` but every line from
that index onward contributes nothing (a marker line whose after-token
content strips to blank, or a non-marker line whose cleaned form is
empty), strategy 1 yields nothing and the extractor's output is the
strategies-2-and-3 cascade: the presence of the marker alone does not
determine the output. -/
theorem C9_blank_marker_falls_through (output : String) (i : Nat)
    (hfind : findMarkerStart output.data (splitNL output.data) = some i)
    (hskip : ∀ l ∈ (splitNL output.data).drop i,
      (isSub MARKL l = true → pyStripList (afterSub MARKL l) = []) ∧
      (isSub MARKL l = false → cleanLine1 l = [])) :
    strat1 output.data = none ∧
    extract_final_result output = ⟨strat23 output.data⟩ := by
  have hgo : strat1Go ((splitNL output.data).drop i) [] = [] :=
    strat1Go_skip_all _ hskip []
  have h1 : strat1 output.data = none := by
    simp only [strat1, hfind]
    rw [if_pos hgo]
  have h2 : extractCore output.data = strat23 output.data := by
    unfold extractCore
    rw [h1]
  exact ⟨h1, congrArg String.mk h2⟩

/-- Witness for C9 at a concrete transcript: the marker is present (at
line 2) but followed only by decorative content, and the output comes
from the labeled-section strategy instead. -/
theorem C9_blank_marker_falls_through_witness :
    strat1 (("Final Answer: The answer\nStatus: complete\nFINAL RESULT:\n╭─╭").data) = none ∧
    extract_final_result ("Final Answer: The answer\nStatus: complete\nFINAL RESULT:\n╭─╭") =
      ⟨strat23 (("Final Answer: The answer\nStatus: complete\nFINAL RESULT:\n╭─╭").data)⟩ :=
  C9_blank_marker_falls_through ("Final Answer: The answer\nStatus: complete\nFINAL RESULT:\n╭─╭")
    2 (by decide) (by decide)

/-! ## Strategy-3 behaviour on decomposed line lists (C4) -/

theorem keepLine_true_cond {l : List Char} (h : keepLine l = true) :
    isChrome l = false ∧ (pyStripList l ≠ [] ∧ 30 < (pyStripList l).length) := by
  simp only [keepLine, Bool.and_eq_true, Bool.not_eq_true', decide_eq_true_eq,
    List.isEmpty_eq_false] at h
  exact ⟨h.1, h.2⟩

theorem keepLine_false_cond {l : List Char} (h : keepLine l = false)
    (hchr : isChrome l = false) :
    ¬(pyStripList l ≠ [] ∧ 30 < (pyStripList l).length) := by
  intro hc
  have ht : keepLine l = true := by
    simp only [keepLine, Bool.and_eq_true, Bool.not_eq_true', decide_eq_true_eq,
      List.isEmpty_eq_false]
    exact ⟨hchr, hc.1, hc.2⟩
  rw [ht] at h
  cases h

theorem strat3Go_nonkeep_all :
    ∀ (b blocks cur : List (List Char)),
      (∀ l ∈ b, keepLine l = false) →
      strat3Go b blocks cur = blocks ++ (if cur = [] then [] else [joinNL cur]) := by
  intro b
  induction b with
  | nil =>
    intro blocks cur _
    by_cases hc : cur = [] <;> simp [strat3Go, hc]
  | cons x b' ih =>
    intro blocks cur hall
    have hx := hall x (List.mem_cons.mpr (Or.inl rfl))
    have h2 := fun l hl => hall l (List.mem_cons.mpr (Or.inr hl))
    by_cases hchr : isChrome x = true
    · rw [show strat3Go (x :: b') blocks cur =
          strat3Go b' (if cur = [] then blocks else blocks ++ [joinNL cur]) [] by
        simp [strat3Go, hchr]]
      rw [ih _ _ h2]
      by_cases hc : cur = [] <;> simp [hc]
    · have hchr' : isChrome x = false := by simpa using hchr
      have hnc := keepLine_false_cond hx hchr'
      by_cases hc : cur = []
      · rw [show strat3Go (x :: b') blocks cur = strat3Go b' blocks cur by
          simp [strat3Go, hchr', hnc, hc]]
        rw [ih _ _ h2]
      · rw [show strat3Go (x :: b') blocks cur =
            strat3Go b' (blocks ++ [joinNL cur]) [] by
          simp [strat3Go, hchr', hnc, hc]]
        rw [ih _ _ h2]
        simp [hc]

theorem strat3Go_keep_all :
    ∀ (r rest blocks cur : List (List Char)),
      (∀ l ∈ r, keepLine l = true) →
      strat3Go (r ++ rest) blocks cur =
        strat3Go rest blocks (cur ++ r.map pyStripList) := by
  intro r
  induction r with
  | nil => intro rest blocks cur _; simp
  | cons x r' ih =>
    intro rest blocks cur hall
    have hx := keepLine_true_cond (hall x (List.mem_cons.mpr (Or.inl rfl)))
    have h2 := fun l hl => hall l (List.mem_cons.mpr (Or.inr hl))
    rw [List.cons_append]
    rw [show strat3Go (x :: (r' ++ rest)) blocks cur =
        strat3Go (r' ++ rest) blocks (cur ++ [pyStripList x]) by
      simp [strat3Go, hx.1, hx.2]]
    rw [ih rest blocks _ h2]
    simp

theorem strat3Go_close_last :
    ∀ a : List (List Char), a ≠ [] →
      (∃ x, a.getLast? = some x ∧ keepLine x = false) →
      ∀ (rest blocks cur : List (List Char)),
        ∃ blocks', strat3Go (a ++ rest) blocks cur = strat3Go rest blocks' [] := by
  intro a
  induction a with
  | nil => intro h; exact absurd rfl h
  | cons x a' ih =>
    intro _ hlast rest blocks cur
    rcases a' with _ | ⟨y, a''⟩
    · obtain ⟨z, hz, hkz⟩ := hlast
      have hzx : x = z := by simpa using hz
      subst hzx
      by_cases hchr : isChrome x = true
      · exact ⟨if cur = [] then blocks else blocks ++ [joinNL cur], by
          simp [strat3Go, hchr]⟩
      · have hchr' : isChrome x = false := by simpa using hchr
        have hnc := keepLine_false_cond hkz hchr'
        by_cases hc : cur = []
        · refine ⟨blocks, ?_⟩
          subst hc
          simp [strat3Go, hchr', hnc]
        · exact ⟨blocks ++ [joinNL cur], by simp [strat3Go, hchr', hnc, hc]⟩
    · have hlast' : ∃ z, (y :: a'').getLast? = some z ∧ keepLine z = false := by
        obtain ⟨z, hz, hkz⟩ := hlast
        exact ⟨z, by rwa [List.getLast?_cons_cons] at hz, hkz⟩
      by_cases hchr : isChrome x = true
      · obtain ⟨blocks', hb'⟩ := ih (by simp) hlast' rest
          (if cur = [] then blocks else blocks ++ [joinNL cur]) []
        exact ⟨blocks', by
          rw [show strat3Go (x :: (y :: a'') ++ rest) blocks cur =
              strat3Go ((y :: a'') ++ rest)
                (if cur = [] then blocks else blocks ++ [joinNL cur]) [] by
            simp [strat3Go, hchr]]
          exact hb'⟩
      · have hchr' : isChrome x = false := by simpa using hchr
        by_cases hk : pyStripList x ≠ [] ∧ 30 < (pyStripList x).length
        · obtain ⟨blocks', hb'⟩ := ih (by simp) hlast' rest blocks
            (cur ++ [pyStripList x])
          exact ⟨blocks', by
            rw [show strat3Go (x :: (y :: a'') ++ rest) blocks cur =
                strat3Go ((y :: a'') ++ rest) blocks (cur ++ [pyStripList x]) by
              simp [strat3Go, hchr', hk]]
            exact hb'⟩
        · by_cases hc : cur = []
          · obtain ⟨blocks', hb'⟩ := ih (by simp) hlast' rest blocks cur
            exact ⟨blocks', by
              rw [show strat3Go (x :: (y :: a'') ++ rest) blocks cur =
                  strat3Go ((y :: a'') ++ rest) blocks cur by
                simp [strat3Go, hchr', hk, hc]]
              exact hb'⟩
          · obtain ⟨blocks', hb'⟩ := ih (by simp) hlast' rest
              (blocks ++ [joinNL cur]) []
            exact ⟨blocks', by
              rw [show strat3Go (x :: (y :: a'') ++ rest) blocks cur =
                  strat3Go ((y :: a'') ++ rest) (blocks ++ [joinNL cur]) [] by
                simp [strat3Go, hchr', hk, hc]]
              exact hb'⟩

/-- C4 counterexample: a transcript of a 35-character line, a short line
and a 37-character line.  Under the claim's reading (a run ends only at
a blank or UI-chrome line) the last run is both long lines joined, but
the code closes the block at the short line and returns only the last
long line. -/
theorem C4_counterexample :
    claimC4Result
        (("aaaaaaaaaaaaaaaaaaaaaaaaaaaaaaaaaaa\nshort\nbbbbbbbbbbbbbbbbbbbbbbbbbbbbbbbbbbbbb").data) =
      some (("aaaaaaaaaaaaaaaaaaaaaaaaaaaaaaaaaaa\nbbbbbbbbbbbbbbbbbbbbbbbbbbbbbbbbbbbbb").data) ∧
    extractCore
        (("aaaaaaaaaaaaaaaaaaaaaaaaaaaaaaaaaaa\nshort\nbbbbbbbbbbbbbbbbbbbbbbbbbbbbbbbbbbbbb").data) =
      ("bbbbbbbbbbbbbbbbbbbbbbbbbbbbbbbbbbbbb").data ∧
    some (extractCore
        (("aaaaaaaaaaaaaaaaaaaaaaaaaaaaaaaaaaa\nshort\nbbbbbbbbbbbbbbbbbbbbbbbbbbbbbbbbbbbbb").data)) ≠
      claimC4Result
        (("aaaaaaaaaaaaaaaaaaaaaaaaaaaaaaaaaaa\nshort\nbbbbbbbbbbbbbbbbbbbbbbbbbbbbbbbbbbbbb").data) := by
  refine ⟨by decide, by decide, by decide⟩

/-- C4 (amended): a run is a maximal block of consecutive lines that are
neither UI chrome nor of stripped length 30 or below — a blank line, a
chrome line *or a short line* ends the run.  When strategies 1 and 2
yield nothing and the line list decomposes as `a ++ r ++ b` with `r` the
last such run, the extractor returns the stripped lines of `r` joined by
newlines. -/
theorem C4_last_run (a r b : List (List Char))
    (hnl : ∀ l ∈ a ++ (r ++ b), ('\n' : Char) ∉ l)
    (ha : a = [] ∨ ∃ x, a.getLast? = some x ∧ keepLine x = false)
    (hr : r ≠ []) (hrk : ∀ l ∈ r, keepLine l = true)
    (hb : ∀ l ∈ b, keepLine l = false)
    (h1 : strat1 (joinNL (a ++ (r ++ b))) = none)
    (h2 : strat2 (joinNL (a ++ (r ++ b))) = none) :
    extractCore (joinNL (a ++ (r ++ b))) =
      pyStripList (joinNL (r.map pyStripList)) := by
  set o := joinNL (a ++ (r ++ b)) with ho
  have hne : a ++ (r ++ b) ≠ [] := by
    rcases r with _ | ⟨r0, r'⟩
    · exact absurd rfl hr
    · simp
  have hlines : splitNL o = a ++ (r ++ b) := splitNL_joinNL _ hne hnl
  obtain ⟨blocks0, hb0⟩ :
      ∃ blocks0, strat3Go (a ++ (r ++ b)) [] [] = strat3Go (r ++ b) blocks0 [] := by
    rcases ha with rfl | hlast
    · exact ⟨[], by simp⟩
    · rcases a with _ | ⟨a0, a'⟩
      · obtain ⟨x, hx, _⟩ := hlast
        simp at hx
      · exact strat3Go_close_last (a0 :: a') (by simp) hlast (r ++ b) [] []
  rw [strat3Go_keep_all r b blocks0 [] hrk] at hb0
  rw [strat3Go_nonkeep_all b blocks0 ([] ++ r.map pyStripList) hb] at hb0
  have hmapne : r.map pyStripList ≠ [] := by
    rcases r with _ | ⟨r0, r'⟩
    · exact absurd rfl hr
    · simp
  have hfin : strat3Go (splitNL o) [] [] =
      blocks0 ++ [joinNL (r.map pyStripList)] := by
    rw [hlines, hb0]
    simp [hmapne]
  have h3 : strat3 o = some (pyStripList (joinNL (r.map pyStripList))) := by
    unfold strat3
    rw [hfin, List.getLast?_concat]
  unfold extractCore strat23
  rw [h1, h2, h3]

/-- Witness for C4_last_run at a concrete transcript. -/
theorem C4_last_run_witness :
    extractCore (joinNL [("short one").data,
        ("aaaaaaaaaaaaaaaaaaaaaaaaaaaaaaaaaaa").data,
        ("bbbbbbbbbbbbbbbbbbbbbbbbbbbbbbbbbbbbb").data, ("╭ chrome").data]) =
      pyStripList (joinNL ([("aaaaaaaaaaaaaaaaaaaaaaaaaaaaaaaaaaa").data,
        ("bbbbbbbbbbbbbbbbbbbbbbbbbbbbbbbbbbbbb").data].map pyStripList)) := by
  have h := C4_last_run [("short one").data]
    [("aaaaaaaaaaaaaaaaaaaaaaaaaaaaaaaaaaa").data,
     ("bbbbbbbbbbbbbbbbbbbbbbbbbbbbbbbbbbbbb").data]
    [("╭ chrome").data]
    (by decide) (Or.inr ⟨("short one").data, by decide, by decide⟩)
    (by decide) (by decide) (by decide) (by decide) (by decide)
  simpa using h

/-! ## Provider selection (C5) -/

/-- C5 counterexample: with no credential set and an `LLM(...)`
construction that succeeds (its normal behaviour — the constructor does
not validate credentials), the loop reaches the keyless Ollama candidate
and returns it, not the Groq fallback descriptor. -/
theorem C5_counterexample :
    get_available_llm (fun _ => none) (fun _ => true) = ollamaHandle ∧
    get_available_llm (fun _ => none) (fun _ => true) ≠
      groqFallback (fun _ => none) := by
  constructor
  · rfl
  · decide

/-- C5 (amended): with no credential set, the three keyed candidates are
skipped; the keyless Ollama candidate is constructed and returned if its
construction succeeds, and only if it also fails does `get_available_llm`
return the hard-coded Groq fallback descriptor with an empty API key.
Either way the function returns a descriptor and never raises. -/
theorem C5_provider_fallback (env : String → Option String)
    (constructOk : LLMHandle → Bool) (henv : ∀ v, env v = none) :
    get_available_llm env constructOk =
      (if constructOk ollamaHandle then ollamaHandle else groqEmptyKeyHandle) := by
  have h1 := henv ("GROQ_API_KEY")
  have h2 := henv ("OPENAI_API_KEY")
  have h3 := henv ("ANTHROPIC_API_KEY")
  simp only [get_available_llm, llm_configs, getLLMGo, handleOf, h1, h2, h3,
    groqFallback]
  by_cases hc : constructOk ollamaHandle = true
  · simp [ollamaHandle] at hc
    simp [hc, ollamaHandle, groqEmptyKeyHandle]
  · have hc' : constructOk ollamaHandle = false := by simpa using hc
    simp [ollamaHandle] at hc'
    simp [hc', h1, ollamaHandle, groqEmptyKeyHandle]

/-- Witness for C5_provider_fallback: every construction fails, so the
Groq fallback descriptor with empty API key is returned. -/
theorem C5_provider_fallback_witness :
    get_available_llm (fun _ => none) (fun _ => false) = groqEmptyKeyHandle := by
  have h := C5_provider_fallback (fun _ => none) (fun _ => false) (fun _ => rfl)
  simpa using h

/-! ## Server probing (C6) -/

/-- C6: the filesystem server appears in the working-server list exactly
when the npx probe succeeded and `check_node_version` passed; a Node.js
version reporting major 16 fails the check even though the command ran,
while major 18 passes. -/
theorem C6_filesystem_version_gate :
    (∀ (img search npxOk : Bool) (nodeOut : Option String) (npxCmd : String),
      (("Filesystem Server" : String) ∈
          (get_working_servers img search npxOk nodeOut npxCmd).map ServerEntry.name)
        ↔ (npxOk = true ∧ check_node_version nodeOut = true)) ∧
    check_node_version (some ("v16.20.2\n")) = false ∧
    check_node_version (some ("v18.17.0\n")) = true ∧
    check_node_version none = false := by
  refine ⟨?_, by decide, by decide, by decide⟩
  intro img search npxOk nodeOut npxCmd
  cases img <;> cases search <;> cases npxOk <;>
    rcases hn : check_node_version nodeOut with _ | _ <;>
      simp [get_working_servers, hn]

/-! ## `run_research` (C8) -/

/-- C8: the `(result, error)` pair of `run_research` carries a result and
no error exactly when the subprocess completed with exit code 0; for a
nonzero exit code the result is `none` and the single error message is
the fixed prefix followed by the captured stderr (so it contains the
stderr verbatim). -/
theorem C8_subprocess_result :
    (∀ o : ProcOutcome,
      ((run_research o).2 = none ↔ ∃ s e, o = .completed 0 s e) ∧
      ((run_research o).1 = none ↔ (run_research o).2 ≠ none)) ∧
    (∀ (code : Int) (s e : String), code ≠ 0 →
      run_research (.completed code s e) =
        (none, some (("Error (return code " ++ toString code ++ "):\n") ++ e))) := by
  constructor
  · intro o
    cases o with
    | completed code s e =>
      by_cases hc : code = 0
      · subst hc
        constructor
        · simp only [run_research, if_pos rfl]
          exact ⟨fun _ => ⟨s, e, rfl⟩, fun _ => rfl⟩
        · simp [run_research]
      · constructor
        · simp only [run_research, if_neg hc]
          constructor
          · intro h
            cases h
          · rintro ⟨s', e', he⟩
            injection he with h1 _ _
            exact absurd h1 hc
        · simp [run_research, hc]
    | timedOut => simp [run_research]
    | failed m => simp [run_research]
  · intro code s e hc
    simp [run_research, hc]

/-- Witness for C8 at exit code 1. -/
theorem C8_subprocess_result_witness :
    (1 : Int) ≠ 0 ∧
    run_research (.completed 1 ("out") ("boom")) =
      (none, some (("Error (return code " ++ toString (1 : Int) ++ "):\n") ++ ("boom"))) :=
  ⟨by decide, C8_subprocess_result.2 1 ("out") ("boom") (by decide)⟩

/-! ## Search count clamping (C10) -/

/-- C10: for every integer count argument (including zero and negative
values) the count placed in the outgoing request parameters of both
`brave_search` and `search_news` lies in the inclusive range 1..20. -/
theorem C10_count_clamped :
    ∀ (q : String) (c : Int),
      (1 ≤ (brave_search_params q c).count ∧ (brave_search_params q c).count ≤ 20) ∧
      (1 ≤ (search_news_params q c).count ∧ (search_news_params q c).count ≤ 20) := by
  intro q c
  have h1 : (1 : Int) ≤ max 1 (min c 20) := le_max_left 1 (min c 20)
  have h2 : max 1 (min c 20) ≤ 20 :=
    max_le (by norm_num) (min_le_right c 20)
  exact ⟨⟨h1, h2⟩, ⟨h1, h2⟩⟩

/-! ## ANSI stripping (C7) -/

theorem dropWhile_isSuffix {p : Char → Bool} :
    ∀ l : List Char, l.dropWhile p <:+ l := by
  intro l
  induction l with
  | nil => exact ⟨[], rfl⟩
  | cons a t ih =>
    by_cases hpa : p a = true
    · rw [List.dropWhile_cons_of_pos hpa]
      exact ih.trans ⟨[a], rfl⟩
    · rw [List.dropWhile_cons_of_neg hpa]

theorem matchAnsi_isSuffix {l r : List Char} (h : matchAnsi l = some r) :
    r <:+ l := by
  cases l with
  | nil => simp [matchAnsi] at h
  | cons c t =>
    simp only [matchAnsi] at h
    by_cases hc : c = '['
    · rw [if_pos hc] at h
      rcases hd : dropDS t with _ | ⟨m, r'⟩ <;> rw [hd] at h
      · simp at h
      · dsimp only at h
        by_cases hm : m = 'm'
        · rw [if_pos hm] at h
          injection h with h
          have h1 : dropDS t <:+ t := dropWhile_isSuffix t
          rw [hd] at h1
          rw [← h]
          exact ((List.suffix_cons m r').trans h1).trans ⟨[c], rfl⟩
        · rw [if_neg hm] at h
          simp at h
    · rw [if_neg hc] at h
      simp at h

theorem escOk_tail {c : Char} {rest : List Char} (h : escOk (c :: rest) = true) :
    escOk rest = true := by
  simp only [escOk, Bool.and_eq_true] at h
  exact h.2

theorem escOk_suffix :
    ∀ l t : List Char, escOk l = true → t <:+ l → escOk t = true := by
  intro l
  induction l with
  | nil =>
    intro t _ ht
    rw [List.suffix_nil.mp ht]
    rfl
  | cons c rest ih =>
    intro t h ht
    rcases List.suffix_cons_iff.mp ht with rfl | ht'
    · exact h
    · exact ih t (escOk_tail h) ht'

theorem ansiStripGo_no_esc :
    ∀ (n : Nat) (l : List Char), l.length ≤ n → escOk l = true →
      ('\x1b' : Char) ∉ ansiStripGo n l := by
  intro n
  induction n with
  | zero =>
    intro l hl _
    have hln : l = [] := List.length_eq_zero.mp (Nat.le_zero.mp hl)
    subst hln
    simp [ansiStripGo]
  | succ n ih =>
    intro l hl hesc
    cases l with
    | nil => simp [ansiStripGo]
    | cons c rest =>
      by_cases hc : c = '\x1b'
      · subst hc
        have hsome : (matchAnsi rest).isSome = true := by
          simp [escOk] at hesc
          exact hesc.1
        obtain ⟨r, hr⟩ := Option.isSome_iff_exists.mp hsome
        rw [show ansiStripGo (n + 1) ('\x1b' :: rest) = ansiStripGo n r by
          simp [ansiStripGo, hr]]
        have hlen : r.length ≤ n := by
          have h1 := matchAnsi_length hr
          simp only [List.length_cons] at hl
          omega
        exact ih r hlen (escOk_suffix rest r (escOk_tail hesc) (matchAnsi_isSuffix hr))
      · rw [show ansiStripGo (n + 1) (c :: rest) = c :: ansiStripGo n rest by
          simp [ansiStripGo, hc]]
        intro hmem
        rcases List.mem_cons.mp hmem with heq | hmem2
        · exact hc heq.symm
        · have hlen : rest.length ≤ n := by
            simp only [List.length_cons] at hl
            omega
          exact ih rest hlen (escOk_tail hesc) hmem2

/-- C7 counterexample: strategy 1 extracts the trailing content of the
marker line verbatim; on it, the single left-to-right `re.sub` pass
removes the inner `ESC[0m` sequence, and the removal joins the
surrounding fragments into a new literal `ESC[0m` that remains in the
final displayed string. -/
theorem C7_counterexample :
    extract_final_result ("FINAL RESULT: \x1b[0\x1b[0mm") = ("\x1b[0\x1b[0mm") ∧
    stripAnsi ("\x1b[0\x1b[0mm") = ("\x1b[0m") ∧
    isSub (("\x1b[0m").data)
      ((stripAnsi (extract_final_result ("FINAL RESULT: \x1b[0\x1b[0mm"))).data) = true := by
  refine ⟨by decide, ?_, ?_⟩
  · show String.mk (ansiStrip (("\x1b[0\x1b[0mm").data)) = ("\x1b[0m")
    decide
  · show isSub (("\x1b[0m").data)
      (ansiStrip ((extract_final_result ("FINAL RESULT: \x1b[0\x1b[0mm")).data)) = true
    decide

/-- C7 (amended): if every escape character of the extracted string
begins a complete `ESC[<digits/semicolons>m` sequence, the
always-applied stripping pass leaves a string with no escape character
at all, hence no ANSI escape sequence; when removal junctions recombine
fragments (as in the counterexample) a sequence can survive the pass. -/
theorem C7_ansi_stripped (s : String) (h : escOk s.data = true) :
    ('\x1b' : Char) ∉ (stripAnsi s).data :=
  ansiStripGo_no_esc s.data.length s.data le_rfl h

/-- Witness for C7_ansi_stripped on a normally-colored string. -/
theorem C7_ansi_stripped_witness :
    escOk (("abc\x1b[31;1mdef\x1b[0m").data) = true ∧
    ('\x1b' : Char) ∉ (stripAnsi ("abc\x1b[31;1mdef\x1b[0m")).data :=
  ⟨by decide, C7_ansi_stripped ("abc\x1b[31;1mdef\x1b[0m") (by decide)⟩

end CrewaiMCP
